import Mathlib

/-!
Shallow embedding of the quantum tape module
(`pennylane/beta/tapes/tape.py`): the data model, the construction pass
(`_construct`), the parameter registry (`get_parameters`,
`set_parameters`, the `trainable_params` setter), the executor
(`execute_device`) and the finite-difference differentiation engine
(`_grad_method`, `igrad_numeric`, `jacobian`).

Modelling conventions:

* Machine floats are modelled as exact rationals (`ℚ`).
* The numeric backend (the device) is an abstract function from the full
  flattened parameter vector of the substituted program to its output
  vector; `device.reset` is a no-op in the model.  Both device branches
  of `execute_device` (unified and legacy) hand the device the program
  with the substituted parameters, so a device is modelled as a function
  of that parameter vector for a fixed program structure.
* The external dependency graph (`CircuitGraph.nodes_between`, built
  from the resolved operation/observable lists) is an abstract relation
  `nodes_between : ℕ → ℕ → Bool` between the position of an operation in
  `ops` and the position of an observable in `obs`; the source uses it
  only for path-existence queries.  Positions stand for Python object
  identity.
* Iteration over a Python `set` of small nonnegative integers is
  modelled as ascending order; this is the order the registry relies on
  (`get_parameters` filters `enumerate` in ascending index order and
  `set_parameters` zips the same set against the incoming values).
* A raised Python exception is modelled by an `Option String` error
  component (the message) next to the resulting state, or by an
  `Except String` result; backend evaluations are counted explicitly.
* Nested tapes recorded as opaque operations are outside the claims
  under verification and are not part of the queue model.
-/

/-- Return kinds of a measurement process (`obj.return_type`). -/
inductive ReturnKind
  | Probability
  | Sample
  | Expectation
  | Variance
deriving DecidableEq, Repr

/-- An observable owned by a measurement process (for example `PauliZ`):
wire labels plus the `return_type` attribute that `_construct` copies
onto it from the owning measurement. -/
structure Observable where
  wires : List ℕ
  return_type : Option ReturnKind
deriving DecidableEq, Repr

/-- A parameterized operation: ordered wire labels, the mutable numeric
data vector `op.data`, and the `grad_method` indicator (`true` when the
operation declares a gradient method, `false` for Python `None`). -/
structure Operation where
  wires : List ℕ
  data : List ℚ
  grad_method : Bool
deriving DecidableEq, Repr

/-- A measurement process: its declared return kind and wire labels. -/
structure MeasurementProcess where
  return_type : ReturnKind
  wires : List ℕ
deriving DecidableEq, Repr

/-- The owner component of a registered observable pair: `_construct`
registers `(obj, obj)` for a probability measurement (the measurement
owns itself) and `(obj, info.owns)` otherwise. -/
inductive ObsOwner
  | meas (m : MeasurementProcess)
  | obs (o : Observable)
deriving DecidableEq, Repr

/-- The quantum tape state after construction: resolved operation list,
registered observable pairs, trainable index set, output dimension,
sampling flag, wire set, and whether the lazy dependency graph has been
built (`_graph is not None`). -/
structure QuantumTape where
  ops : List Operation
  obs : List (MeasurementProcess × ObsOwner)
  trainable_params : Finset ℕ
  output_dim : ℕ
  is_sampled : Bool
  wires : List ℕ
  graph_cached : Bool
deriving DecidableEq

/-- The parameter registry `_par_info`: entry `k` of this list is the
location of global parameter index `k`, as a pair (position of the
owning operation in `ops`, local slot in the data vector of that
operation).  Global indices are assigned in first-seen order while
scanning the operations, exactly as the loop in
`QuantumTape._construct` records them. -/
def parLocs : List Operation → List (ℕ × ℕ)
  | [] => []
  | o :: os =>
    ((List.range o.data.length).map fun p => (0, p)) ++
      (parLocs os).map fun q => (q.1 + 1, q.2)

/-- The flat concatenation of the data vectors of all operations, in
operation order: the full parameter vector of the program, as built by
`get_parameters(free_only=False)`. -/
def flatParams (ops : List Operation) : List ℚ :=
  (ops.map Operation.data).flatten

/-- Write value `v` into the recorded location `loc` = (operation
position, slot): the in-place update `op.data[p_idx] = p` performed by
`QuantumTape.set_parameters`. -/
def writeParam : List Operation → ℕ × ℕ → ℚ → List Operation
  | [], _, _ => []
  | o :: os, (0, p), v => { o with data := o.data.set p v } :: os
  | o :: os, (i + 1, p), v => o :: writeParam os (i, p) v

/-- Ascending enumeration of a finite set of global parameter indices:
the model of iterating over a Python set of small nonnegative integers. -/
def sortedIndices (s : Finset ℕ) : List ℕ :=
  (List.range (s.sup id + 1)).filter fun i => decide (i ∈ s)

/-- A numeric backend: maps the full flattened parameter vector of the
substituted program to its output vector. -/
def Device : Type := List ℚ → List ℚ

/-- Outcome of running code that calls the device on a tape: the raised
exception or the returned vector, the resulting tape state, and the
number of device executions performed. -/
structure DevRun where
  result : Except String (List ℚ)
  tape : QuantumTape
  evals : ℕ

/-- Partial derivative method chosen by `_grad_method`: `U` is Python
`None` (undifferentiable), `Z` is `"0"` (structurally zero), `F` is
`"F"` (numeric finite differences). -/
inductive GradMethodResult
  | U
  | Z
  | F
deriving DecidableEq, Repr

namespace QuantumTape

/-- `num_params`: the number of trainable parameters
(`len(self.trainable_params)`). -/
def num_params (t : QuantumTape) : ℕ := t.trainable_params.card

/-- `observables`: the owner components of the registered pairs
(`[m[1] for m in self._obs]`). -/
def observables (t : QuantumTape) : List ObsOwner := t.obs.map Prod.snd

/-- `get_parameters`: concatenate every data vector in operation order;
when `free_only`, keep the entries whose global index is trainable
(Python filters `enumerate(params)` by set membership, in ascending
index order). -/
def get_parameters (t : QuantumTape) (free_only : Bool) : List ℚ :=
  let params := flatParams t.ops
  if !free_only then params
  else (params.enum.filter fun p => decide (p.1 ∈ t.trainable_params)).map Prod.snd

/-- The write loop of `set_parameters`: look each global index up in the
fixed registry `pinfo` and write the value at the recorded location; a
missing key raises (`KeyError`), leaving the writes already performed in
place. -/
def writeAll (pinfo : List (ℕ × ℕ)) :
    QuantumTape → List (ℕ × ℚ) → QuantumTape × Option String
  | t, [] => (t, none)
  | t, (idx, p) :: rest =>
    match pinfo[idx]? with
    | none => (t, some "KeyError")
    | some loc => writeAll pinfo { t with ops := writeParam t.ops loc p } rest

/-- `set_parameters`: pair the incoming values with the trainable
indices (`zip(self.trainable_params, parameters)`) or with all indices
(`enumerate(parameters)`); raise `ValueError` when the number of values
differs from the required length, checked before any write; otherwise
write every value into its recorded location. -/
def set_parameters (t : QuantumTape) (parameters : List ℚ) (free_only : Bool) :
    QuantumTape × Option String :=
  let pairs :=
    if free_only then (sortedIndices t.trainable_params).zip parameters
    else parameters.enum
  let required_length := if free_only then t.num_params else (parLocs t.ops).length
  if parameters.length ≠ required_length then
    (t, some "Number of provided parameters invalid.")
  else
    writeAll (parLocs t.ops) t pairs

/-- The `trainable_params` setter: reject any negative index (the model
uses `ℤ` inputs, so the Python non-integer branch does not arise),
reject any index strictly greater than the current `num_params`, and
otherwise replace the trainable set wholesale. -/
def set_trainable_params (t : QuantumTape) (param_indices : Finset ℤ) :
    QuantumTape × Option String :=
  if ∃ i ∈ param_indices, i < 0 then
    (t, some "Argument indices must be positive integers.")
  else if ∃ i ∈ param_indices, (t.num_params : ℤ) < i then
    (t, some ("Tape has at most " ++ toString t.num_params ++ " trainable parameters."))
  else
    ({ t with trainable_params := param_indices.image Int.toNat }, none)

/-- `execute_device`: reset the device (a no-op here), snapshot the
current free parameters, substitute `params` (free mode), run the
device on the substituted program, restore the snapshot and return the
raw device result, counting one device execution. -/
def execute_device (t : QuantumTape) (params : List ℚ) (dev : Device) : DevRun :=
  let current_parameters := t.get_parameters true
  match t.set_parameters params true with
  | (t1, some e) => ⟨.error e, t1, 0⟩
  | (t1, none) =>
    let res := dev (flatParams t1.ops)
    match t1.set_parameters current_parameters true with
    | (t2, some e) => ⟨.error e, t2, 1⟩
    | (t2, none) => ⟨.ok res, t2, 1⟩

/-- `_grad_method`: undifferentiable when the owning operation declares
no gradient method; when the graph is cached or requested, structurally
zero when no observable has a dependency path from the owning
operation; numeric finite differences otherwise. -/
def _grad_method (t : QuantumTape) (nodes_between : ℕ → ℕ → Bool)
    (use_graph : Bool) (idx : ℕ) : GradMethodResult :=
  match (parLocs t.ops)[idx]? with
  | none => .U
  | some loc =>
    match t.ops[loc.1]? with
    | none => .U
    | some op =>
      if !op.grad_method then .U
      else if t.graph_cached || use_graph then
        let best := (List.range t.observables.length).map fun ob => nodes_between loc.1 ob
        if best.all fun k => !k then .Z else .F
      else .F

/-- `igrad_numeric`: finite-difference estimate for one parameter.
Order 1 is the forward difference: the default argument of
`options.get("y0", np.asarray(self.execute_device(params, device)))`
is evaluated eagerly by Python, so the baseline is executed on the
device in every order-1 call; the provided `y0`, when present, then
replaces the freshly computed (and discarded) value.  Order 2 is the
central difference; any other order raises `ValueError` with no device
evaluation. -/
def igrad_numeric (t : QuantumTape) (idx : ℕ) (dev : Device)
    (params? : Option (List ℚ)) (order : ℕ) (h : ℚ) (y0? : Option (List ℚ)) : DevRun :=
  let params := params?.getD (t.get_parameters true)
  let shift := (List.range params.length).map fun i => if i = idx then h else 0
  if order = 1 then
    let r0 := t.execute_device params dev
    match r0.result with
    | .error e => ⟨.error e, r0.tape, r0.evals⟩
    | .ok d =>
      let y0 := y0?.getD d
      let r1 := r0.tape.execute_device (List.zipWith (· + ·) params shift) dev
      match r1.result with
      | .error e => ⟨.error e, r1.tape, r0.evals + r1.evals⟩
      | .ok y =>
        ⟨.ok (List.zipWith (fun a b => (a - b) / h) y y0), r1.tape, r0.evals + r1.evals⟩
  else if order = 2 then
    let rf := t.execute_device (List.zipWith (· + ·) params (shift.map (· / 2))) dev
    match rf.result with
    | .error e => ⟨.error e, rf.tape, rf.evals⟩
    | .ok yf =>
      let rb := rf.tape.execute_device (List.zipWith (· - ·) params (shift.map (· / 2))) dev
      match rb.result with
      | .error e => ⟨.error e, rb.tape, rf.evals + rb.evals⟩
      | .ok yb =>
        ⟨.ok (List.zipWith (fun a b => (a - b) / h) yf yb), rb.tape, rf.evals + rb.evals⟩
  else ⟨.error "Order must be 1 or 2.", t, 0⟩

/-- Outcome of `jacobian`: the raised exception or the matrix (stored as
the list of its columns, since the loop assigns `jac[:, idx]`), the
resulting tape state, and the number of device executions. -/
structure JacRun where
  result : Except String (List (List ℚ))
  tape : QuantumTape
  evals : ℕ

/-- The column loop of `jacobian`: for each flat index of `params`,
choose the partial derivative method; fill the column by
`igrad_numeric` when it is `"F"`, and otherwise leave the pre-zeroed
column (`np.zeros((output_dim, len(params)))`) untouched. -/
def jacobianLoop (dev : Device) (nodes_between : ℕ → ℕ → Bool) (params : List ℚ)
    (order : ℕ) (h : ℚ) (use_graph : Bool) (y0? : Option (List ℚ)) :
    QuantumTape → List ℕ → Except String (List (List ℚ)) × QuantumTape × ℕ
  | t, [] => (.ok [], t, 0)
  | t, idx :: rest =>
    if t._grad_method nodes_between use_graph idx = .F then
      let r := t.igrad_numeric idx dev (some params) order h y0?
      match r.result with
      | .error e => (.error e, r.tape, r.evals)
      | .ok col =>
        match jacobianLoop dev nodes_between params order h use_graph y0? r.tape rest with
        | (.error e, t2, c2) => (.error e, t2, r.evals + c2)
        | (.ok cols, t2, c2) => (.ok (col :: cols), t2, r.evals + c2)
    else
      match jacobianLoop dev nodes_between params order h use_graph y0? t rest with
      | (.error e, t2, c2) => (.error e, t2, c2)
      | (.ok cols, t2, c2) => (.ok (List.replicate t.output_dim 0 :: cols), t2, c2)

/-- `jacobian`: take the free parameters when none are provided; for
order 1 evaluate the baseline `y0` once at the unperturbed parameters
and hand it to every column; loop over the flat indices of `params`
(`np.ndindex(*params.shape)`), classifying each with `_grad_method` and
filling only `"F"` columns. -/
def jacobian (t : QuantumTape) (dev : Device) (nodes_between : ℕ → ℕ → Bool)
    (params? : Option (List ℚ)) (order : ℕ) (h : ℚ) (use_graph : Bool) : JacRun :=
  let params := params?.getD (t.get_parameters true)
  if order = 1 then
    let r0 := t.execute_device params dev
    match r0.result with
    | .error e => ⟨.error e, r0.tape, r0.evals⟩
    | .ok y0 =>
      match jacobianLoop dev nodes_between params order h use_graph (some y0) r0.tape
          (List.range params.length) with
      | (res, t2, c) => ⟨res, t2, r0.evals + c⟩
  else
    match jacobianLoop dev nodes_between params order h use_graph none t
        (List.range params.length) with
    | (res, t2, c) => ⟨res, t2, c⟩

end QuantumTape

/-- A resolved queue entry handled by `_construct`: an entry with empty
annotation info that is an operation, or a measurement process with the
optional observable it owns (`info["owns"]`). -/
inductive QueueItem
  | operation (o : Operation)
  | measurement (m : MeasurementProcess) (owns : Option Observable)
deriving DecidableEq, Repr

/-- One step of the scan in `QuantumTape._construct`: append operations;
register `(obj, obj)` for probability measurements, adding `2^|wires|`
to the output dimension; register `(obj, owned)` for owned measurements
after copying the return kind onto the owned object, adding 1 and
flagging sampling for `Sample`; drop anything else. -/
def constructStep (t : QuantumTape) : QueueItem → QuantumTape
  | .operation o => { t with ops := t.ops ++ [o] }
  | .measurement m owns =>
    if m.return_type = .Probability then
      { t with
        obs := t.obs ++ [(m, .meas m)],
        output_dim := t.output_dim + 2 ^ m.wires.length }
    else
      match owns with
      | some ob =>
        { t with
          obs := t.obs ++ [(m, .obs { ob with return_type := some m.return_type })],
          output_dim := t.output_dim + 1,
          is_sampled := if m.return_type = .Sample then true else t.is_sampled }
      | none => t

/-- The wire labels of the owner of a registered observable pair. -/
def ownerWires : ObsOwner → List ℕ
  | .meas m => m.wires
  | .obs o => o.wires

/-- The freshly initialized tape (`__init__`). -/
def QuantumTape.init : QuantumTape :=
  ⟨[], [], ∅, 0, false, [], false⟩

/-- `QuantumTape._construct`: scan the resolved queue entries in
insertion order, then set the wire set to the union over operations and
observable owners and initialize the trainable set to all allocated
global indices. -/
def construct (queue : List QueueItem) : QuantumTape :=
  let t := queue.foldl constructStep QuantumTape.init
  { t with
    wires := ((t.ops.map Operation.wires) ++ (t.observables.map ownerWires)).flatten.dedup,
    trainable_params := Finset.range (parLocs t.ops).length }

/-- The shape of an operation: everything except the values held in its
data vector.  Parameter writes replace values only, so shapes are
invariant under the registry operations. -/
def opShape (o : Operation) : List ℕ × ℕ × Bool :=
  (o.wires, o.data.length, o.grad_method)

/-- Well-formedness of the trainable set: every trainable index is a
valid global parameter index.  `_construct` establishes this (it sets
the trainable set to `set(range(param_count))`); the bound check of the
trainable setter is against `num_params`, so it does not always
preserve it. -/
def QuantumTape.WF (t : QuantumTape) : Prop :=
  ∀ i ∈ t.trainable_params, i < (parLocs t.ops).length

instance (t : QuantumTape) : Decidable t.WF :=
  Finset.decidableDforallFinset

/-- The flat-vector effect of a sequence of registry writes: set each
value at its global index, left to right. -/
def setAllFlat (l : List ℚ) (pairs : List (ℕ × ℚ)) : List ℚ :=
  pairs.foldl (fun acc kv => acc.set kv.1 kv.2) l

/-- The columns of a `jacobian` outcome (the empty matrix when it
raised). -/
def colsOf (r : QuantumTape.JacRun) : List (List ℚ) :=
  match r.result with
  | .ok cols => cols
  | .error _ => []

/-- The number of flat indices of the column loop that `_grad_method`
classifies as numeric (`"F"`): the columns `jacobian` fills. -/
def QuantumTape.numericCount (t : QuantumTape) (nodes_between : ℕ → ℕ → Bool)
    (use_graph : Bool) (n : ℕ) : ℕ :=
  ((List.range n).filter fun i =>
    decide (t._grad_method nodes_between use_graph i = .F)).length

/-- The column vector produced by one `igrad_numeric` call (the empty
vector when it raised): the value written into `jac[:, idx]`. -/
def igradCol (t : QuantumTape) (idx : ℕ) (dev : Device) (params : List ℚ)
    (order : ℕ) (h : ℚ) (y0? : Option (List ℚ)) : List ℚ :=
  match (t.igrad_numeric idx dev (some params) order h y0?).result with
  | .ok col => col
  | .error _ => []

/-- The output dimension a queue should produce according to the
resolution rules: `2^|wires|` for each probability measurement, 1 for
each other measurement that owns an observable, 0 for dropped
entries and operations. -/
def outputDimFormula (queue : List QueueItem) : ℕ :=
  (queue.map fun item =>
    match item with
    | .operation _ => 0
    | .measurement m owns =>
      if m.return_type = .Probability then 2 ^ m.wires.length
      else match owns with
        | some _ => 1
        | none => 0).sum

/-- A one-parameter gate on one wire that declares a gradient method
(such as `RX(v, wires=w)`): the building block of the example
programs. -/
def mkOp (w : ℕ) (v : ℚ) : Operation := ⟨[w], [v], true⟩

/-- An expectation-kind measurement on wire 0. -/
def mExp : MeasurementProcess := ⟨.Expectation, [0]⟩

/-- An observable on wire 0 (such as `PauliZ(0)`). -/
def obZ : Observable := ⟨[0], none⟩

/-- Example recording: A(1) on wire 0, B(2) on wire 1, C(3) on wire 2,
one expectation measurement owning an observable on wire 0 (the
scenario of the spec). -/
def queueABC : List QueueItem :=
  [.operation (mkOp 0 1), .operation (mkOp 1 2), .operation (mkOp 2 3),
   .measurement mExp (some obZ)]

/-- The constructed three-parameter example tape. -/
def tapeABC : QuantumTape := construct queueABC

/-- The example tape after `trainable_params = {0}` through the setter. -/
def tapeC3 : QuantumTape := (tapeABC.set_trainable_params {(0 : ℤ)}).1

/-- A two-parameter recording: A(5) on wire 0, B(7) on wire 1, one
expectation measurement. -/
def queueAB : List QueueItem :=
  [.operation (mkOp 0 5), .operation (mkOp 1 7), .measurement mExp (some obZ)]

/-- The constructed two-parameter example tape. -/
def tapeAB : QuantumTape := construct queueAB

/-- The two-parameter tape after `trainable_params = {1}` through the
setter: the trainable parameter is global index 1, owned by operation
B. -/
def tapeC1 : QuantumTape := (tapeAB.set_trainable_params {(1 : ℤ)}).1

/-- A recording with operations but no measurement at all. -/
def tapeNoObs : QuantumTape :=
  construct [.operation (mkOp 0 1), .operation (mkOp 1 2)]

/-- Example device: returns the sum of all parameters (one output
entry, matching output dimension 1). -/
def devSum : Device := fun l => [l.sum]

/-- Example device: returns the parameter at global index 1 (one
output entry). -/
def devSecond : Device := fun l => [l.getD 1 0]

/-- Example dependency graph: only operation 0 has a path to an
observable; operations 1 and 2 have none. -/
def gFirstOnly : ℕ → ℕ → Bool := fun i _ => decide (i = 0)

/-- Example dependency graph: every operation has a path to every
observable. -/
def gAll : ℕ → ℕ → Bool := fun _ _ => true

theorem flatParams_nil : flatParams [] = [] := rfl

theorem flatParams_cons (o : Operation) (os : List Operation) :
    flatParams (o :: os) = o.data ++ flatParams os := rfl

theorem length_parLocs (ops : List Operation) :
    (parLocs ops).length = (flatParams ops).length := by
  induction ops with
  | nil => rfl
  | cons o os ih => simp [parLocs, flatParams_cons, ih]

theorem parLocs_getElem?_left (o : Operation) (os : List Operation) (k : ℕ)
    (hk : k < o.data.length) : (parLocs (o :: os))[k]? = some (0, k) := by
  rw [parLocs, List.getElem?_append_left (by simpa using hk)]
  simp [List.getElem?_range, hk]

theorem parLocs_getElem?_right (o : Operation) (os : List Operation) (k : ℕ)
    (hk : o.data.length ≤ k) :
    (parLocs (o :: os))[k]? =
      ((parLocs os)[k - o.data.length]?).map fun q => (q.1 + 1, q.2) := by
  rw [parLocs, List.getElem?_append_right (by simpa using hk)]
  simp [List.getElem?_map]

theorem flatParams_writeParam (ops : List Operation) (k : ℕ) (v : ℚ) (loc : ℕ × ℕ)
    (hk : (parLocs ops)[k]? = some loc) :
    flatParams (writeParam ops loc v) = (flatParams ops).set k v := by
  induction ops generalizing k loc with
  | nil => simp [parLocs] at hk
  | cons o os ih =>
    by_cases h : k < o.data.length
    · rw [parLocs_getElem?_left o os k h] at hk
      cases hk
      rw [writeParam, flatParams_cons, flatParams_cons, List.set_append_left _ _ h]
    · push_neg at h
      rw [parLocs_getElem?_right o os k h] at hk
      rcases hq : (parLocs os)[k - o.data.length]? with _ | ⟨i, p⟩
      · rw [hq] at hk; simp at hk
      · rw [hq] at hk
        simp only [Option.map_some'] at hk
        cases hk
        rw [writeParam, flatParams_cons, flatParams_cons,
          List.set_append_right _ _ (by simpa using h), ih _ _ hq]

theorem opShape_writeParam (ops : List Operation) (loc : ℕ × ℕ) (v : ℚ) :
    (writeParam ops loc v).map opShape = ops.map opShape := by
  induction ops generalizing loc with
  | nil => rfl
  | cons o os ih =>
    rcases loc with ⟨i, p⟩
    cases i with
    | zero => simp [writeParam, opShape]
    | succ i => simp [writeParam, ih]

theorem parLocs_eq_of_opShape (ops₁ ops₂ : List Operation)
    (h : ops₁.map opShape = ops₂.map opShape) : parLocs ops₁ = parLocs ops₂ := by
  induction ops₁ generalizing ops₂ with
  | nil => cases ops₂ <;> simp_all
  | cons o os ih =>
    cases ops₂ with
    | nil => simp_all
    | cons o' os' =>
      simp only [List.map_cons, List.cons.injEq] at h
      have hdl : o.data.length = o'.data.length := by
        have := h.1
        simp [opShape] at this
        exact this.2.1
      rw [parLocs, parLocs, hdl, ih os' h.2]

theorem parLocs_writeParam (ops : List Operation) (loc : ℕ × ℕ) (v : ℚ) :
    parLocs (writeParam ops loc v) = parLocs ops :=
  parLocs_eq_of_opShape _ _ (opShape_writeParam ops loc v)

theorem eq_of_opShape_of_flatParams (ops₁ ops₂ : List Operation)
    (h : ops₁.map opShape = ops₂.map opShape)
    (hf : flatParams ops₁ = flatParams ops₂) : ops₁ = ops₂ := by
  induction ops₁ generalizing ops₂ with
  | nil => cases ops₂ <;> simp_all
  | cons o os ih =>
    cases ops₂ with
    | nil => simp_all
    | cons o' os' =>
      simp only [List.map_cons, List.cons.injEq] at h
      have hsh := h.1
      simp only [opShape, Prod.mk.injEq] at hsh
      rw [flatParams_cons, flatParams_cons] at hf
      have := List.append_inj hf hsh.2.1
      have hd : o = o' := by
        cases o; cases o'
        simp_all
      rw [hd, ih os' h.2 this.2]

theorem set_of_getElem? {α : Type} {l : List α} {k : ℕ} {a : α} (h : l[k]? = some a) :
    l.set k a = l := by
  apply List.ext_getElem?
  intro n
  by_cases hn : n = k
  · subst hn
    rw [List.getElem?_set_self (List.getElem?_eq_some.mp h).1, h]
  · rw [List.getElem?_set_ne (by omega)]

theorem writeParam_self (ops : List Operation) (k : ℕ) (v : ℚ) (loc : ℕ × ℕ)
    (hk : (parLocs ops)[k]? = some loc) (hv : (flatParams ops)[k]? = some v) :
    writeParam ops loc v = ops := by
  induction ops generalizing k loc with
  | nil => simp [parLocs] at hk
  | cons o os ih =>
    by_cases h : k < o.data.length
    · rw [parLocs_getElem?_left o os k h] at hk
      cases hk
      rw [flatParams_cons, List.getElem?_append_left (by simpa using h)] at hv
      rw [writeParam, set_of_getElem? hv]
    · push_neg at h
      rw [parLocs_getElem?_right o os k h] at hk
      rw [flatParams_cons, List.getElem?_append_right (by simpa using h)] at hv
      rcases hq : (parLocs os)[k - o.data.length]? with _ | ⟨i, p⟩
      · rw [hq] at hk; simp at hk
      · rw [hq] at hk
        simp only [Option.map_some'] at hk
        cases hk
        rw [writeParam, ih _ _ hq hv]

theorem mem_sortedIndices (s : Finset ℕ) (i : ℕ) : i ∈ sortedIndices s ↔ i ∈ s := by
  unfold sortedIndices
  simp only [List.mem_filter, List.mem_range, decide_eq_true_eq]
  constructor
  · exact fun h => h.2
  · intro h
    have : i ≤ s.sup id := Finset.le_sup (f := id) h
    exact ⟨by omega, h⟩

theorem sortedIndices_nodup (s : Finset ℕ) : (sortedIndices s).Nodup :=
  (List.nodup_range _).filter _

theorem sortedIndices_pairwise (s : Finset ℕ) : (sortedIndices s).Pairwise (· < ·) :=
  (List.pairwise_lt_range _).sublist (List.filter_sublist _)

theorem length_sortedIndices (s : Finset ℕ) : (sortedIndices s).length = s.card := by
  have h1 : (sortedIndices s).toFinset = s := by
    ext i
    simp [List.mem_toFinset, mem_sortedIndices]
  calc (sortedIndices s).length = (sortedIndices s).toFinset.card :=
        (List.toFinset_card_of_nodup (sortedIndices_nodup s)).symm
    _ = s.card := by rw [h1]

theorem sortedIndices_eq_filter_range (s : Finset ℕ) (n : ℕ) (hs : ∀ i ∈ s, i < n) :
    (List.range n).filter (fun i => decide (i ∈ s)) = sortedIndices s := by
  apply List.eq_of_perm_of_sorted (r := (· < ·))
  · refine (List.perm_ext_iff_of_nodup ((List.nodup_range n).filter _)
      (sortedIndices_nodup s)).mpr fun i => ?_
    simp only [List.mem_filter, List.mem_range, decide_eq_true_eq, mem_sortedIndices]
    exact ⟨fun h => h.2, fun h => ⟨hs i h, h⟩⟩
  · exact (List.pairwise_lt_range n).sublist (List.filter_sublist _)
  · exact sortedIndices_pairwise s

theorem enumFrom_filter_map_snd (q : ℕ → Bool) :
    ∀ (l : List ℚ) (n : ℕ),
      ((l.enumFrom n).filter fun p => q p.1).map Prod.snd =
        ((List.range l.length).filter fun i => q (n + i)).map fun i => l.getD i 0
  | [], _ => rfl
  | a :: l, n => by
    have ih := enumFrom_filter_map_snd q l (n + 1)
    have h2 : List.range (a :: l).length = 0 :: (List.range l.length).map Nat.succ := by
      simpa using List.range_succ_eq_map l.length
    have h3 : ((List.range l.length).map Nat.succ).filter (fun i => q (n + i)) =
        ((List.range l.length).filter ((fun i => q (n + i)) ∘ Nat.succ)).map Nat.succ :=
      List.filter_map (p := fun i => q (n + i)) Nat.succ (List.range l.length)
    have h4 : (fun i => q (n + 1 + i)) = (fun i => q (n + i)) ∘ Nat.succ := by
      funext i
      simp only [Function.comp]
      congr 1
      omega
    have h5 : ((a :: l).enumFrom n).filter (fun p => q p.1) =
        ((n, a) :: l.enumFrom (n + 1)).filter (fun p => q p.1) := rfl
    rw [h5, h2, List.filter_cons, List.filter_cons]
    by_cases hq : q n
    · simp only [hq, Nat.add_zero, if_pos, List.map_cons, List.getD_cons_zero, h3,
        List.map_map]
      rw [ih, h4]
      congr 1
    · simp only [hq, Nat.add_zero, if_neg, Bool.false_eq_true, not_false_iff, h3,
        List.map_map]
      rw [ih, h4]
      congr 1

theorem get_parameters_false_eq (t : QuantumTape) :
    t.get_parameters false = flatParams t.ops := rfl

theorem get_parameters_true_eq (t : QuantumTape) (hWF : t.WF) :
    t.get_parameters true =
      (sortedIndices t.trainable_params).map fun i => (flatParams t.ops).getD i 0 := by
  have h0 := enumFrom_filter_map_snd (fun i => decide (i ∈ t.trainable_params))
    (flatParams t.ops) 0
  simp only [Nat.zero_add] at h0
  have h6 : t.get_parameters true =
      (((flatParams t.ops).enumFrom 0).filter fun p =>
        decide (p.1 ∈ t.trainable_params)).map Prod.snd := rfl
  rw [h6, h0, sortedIndices_eq_filter_range t.trainable_params (flatParams t.ops).length
    (fun i hi => by have := hWF i hi; rwa [length_parLocs] at this)]

theorem length_get_parameters_true (t : QuantumTape) (hWF : t.WF) :
    (t.get_parameters true).length = t.num_params := by
  rw [get_parameters_true_eq t hWF, List.length_map, length_sortedIndices]
  rfl

theorem setAllFlat_nil (l : List ℚ) : setAllFlat l [] = l := rfl

theorem setAllFlat_cons (l : List ℚ) (kv : ℕ × ℚ) (rest : List (ℕ × ℚ)) :
    setAllFlat l (kv :: rest) = setAllFlat (l.set kv.1 kv.2) rest := rfl

theorem length_setAllFlat (pairs : List (ℕ × ℚ)) :
    ∀ l : List ℚ, (setAllFlat l pairs).length = l.length := by
  induction pairs with
  | nil => intro l; rfl
  | cons kv rest ih =>
    intro l
    rw [setAllFlat_cons, ih, List.length_set]

theorem setAllFlat_getElem?_not_mem (pairs : List (ℕ × ℚ)) :
    ∀ (l : List ℚ) (j : ℕ), j ∉ pairs.map Prod.fst →
      (setAllFlat l pairs)[j]? = l[j]? := by
  induction pairs with
  | nil => intro l j _; rfl
  | cons kv rest ih =>
    intro l j hj
    simp only [List.map_cons, List.mem_cons, not_or] at hj
    rw [setAllFlat_cons, ih _ _ hj.2, List.getElem?_set_ne (fun h => hj.1 h.symm)]

theorem setAllFlat_getElem?_mem (pairs : List (ℕ × ℚ)) :
    ∀ (l : List ℚ) (j : ℕ) (v : ℚ), (pairs.map Prod.fst).Nodup →
      (j, v) ∈ pairs → j < l.length → (setAllFlat l pairs)[j]? = some v := by
  induction pairs with
  | nil => intro l j v _ hmem; simp at hmem
  | cons kv rest ih =>
    intro l j v hnd hmem hj
    simp only [List.map_cons, List.nodup_cons] at hnd
    rcases List.mem_cons.mp hmem with h | h
    · cases h
      rw [setAllFlat_cons]
      rw [setAllFlat_getElem?_not_mem rest _ _ hnd.1]
      exact List.getElem?_set_self hj
    · rw [setAllFlat_cons]
      exact ih _ _ _ hnd.2 h (by rw [List.length_set]; exact hj)

theorem setAllFlat_restore (l : List ℚ) (ks : List ℕ) (vs : List ℚ)
    (hnd : ks.Nodup) (hlen : vs.length = ks.length) (hks : ∀ k ∈ ks, k < l.length) :
    setAllFlat (setAllFlat l (ks.zip vs)) (ks.zip (ks.map fun i => l.getD i 0)) = l := by
  have hzip2 : ks.zip (ks.map fun i => l.getD i 0) = ks.map fun k => (k, l.getD k 0) :=
    (List.map_prod_left_eq_zip _).symm
  have hkeys2 : (ks.zip (ks.map fun i => l.getD i 0)).map Prod.fst = ks := by
    rw [hzip2, List.map_map]
    exact List.map_id ks
  have hkeys1 : (ks.zip vs).map Prod.fst = ks :=
    List.map_fst_zip ks vs (by omega)
  apply List.ext_getElem?
  intro j
  by_cases hj : j ∈ ks
  · have hjl : j < l.length := hks j hj
    have hmem2 : (j, l.getD j 0) ∈ ks.zip (ks.map fun i => l.getD i 0) := by
      rw [hzip2]
      exact List.mem_map.mpr ⟨j, hj, rfl⟩
    rw [setAllFlat_getElem?_mem _ _ _ _ (by rw [hkeys2]; exact hnd) hmem2
      (by rw [length_setAllFlat]; exact hjl)]
    rw [List.getElem?_eq_getElem hjl, List.getD_eq_getElem _ _ hjl]
  · rw [setAllFlat_getElem?_not_mem _ _ _ (by rw [hkeys2]; exact hj),
      setAllFlat_getElem?_not_mem _ _ _ (by rw [hkeys1]; exact hj)]

theorem writeAll_ok (pairs : List (ℕ × ℚ)) :
    ∀ (pinfo : List (ℕ × ℕ)) (t : QuantumTape), parLocs t.ops = pinfo →
      (∀ kv ∈ pairs, kv.1 < pinfo.length) →
      ∃ ops', QuantumTape.writeAll pinfo t pairs = ({ t with ops := ops' }, none) ∧
        flatParams ops' = setAllFlat (flatParams t.ops) pairs ∧
        ops'.map opShape = t.ops.map opShape := by
  induction pairs with
  | nil =>
    intro pinfo t _ _
    exact ⟨t.ops, rfl, rfl, rfl⟩
  | cons kv rest ih =>
    obtain ⟨idx, p⟩ := kv
    intro pinfo t hp hb
    have hidx : idx < pinfo.length := hb (idx, p) (List.mem_cons_self _ _)
    have hsome : pinfo[idx]? = some pinfo[idx] := List.getElem?_eq_getElem hidx
    have hloc : (parLocs t.ops)[idx]? = some pinfo[idx] := by rw [hp]; exact hsome
    have hstep : QuantumTape.writeAll pinfo t ((idx, p) :: rest) =
        QuantumTape.writeAll pinfo { t with ops := writeParam t.ops pinfo[idx] p } rest := by
      rw [QuantumTape.writeAll, hsome]
    have hp' : parLocs (writeParam t.ops pinfo[idx] p) = pinfo := by
      rw [parLocs_writeParam, hp]
    obtain ⟨ops', h1, h2, h3⟩ :=
      ih pinfo { t with ops := writeParam t.ops pinfo[idx] p } hp'
        (fun kv hkv => hb kv (List.mem_cons_of_mem _ hkv))
    refine ⟨ops', ?_, ?_, ?_⟩
    · rw [hstep, h1]
    · rw [h2, flatParams_writeParam t.ops idx p _ hloc, setAllFlat_cons]
    · exact h3.trans (opShape_writeParam t.ops pinfo[idx] p)

theorem set_parameters_free_ok (t : QuantumTape) (params : List ℚ) (hWF : t.WF)
    (hlen : params.length = t.num_params) :
    ∃ ops', t.set_parameters params true = ({ t with ops := ops' }, none) ∧
      flatParams ops' =
        setAllFlat (flatParams t.ops) ((sortedIndices t.trainable_params).zip params) ∧
      ops'.map opShape = t.ops.map opShape := by
  have hb : ∀ kv ∈ (sortedIndices t.trainable_params).zip params,
      kv.1 < (parLocs t.ops).length := by
    intro kv hkv
    have h1 : kv.1 ∈ sortedIndices t.trainable_params := by
      have := List.of_mem_zip hkv
      exact this.1
    exact hWF kv.1 ((mem_sortedIndices _ _).mp h1)
  obtain ⟨ops', h1, h2, h3⟩ := writeAll_ok _ (parLocs t.ops) t rfl hb
  refine ⟨ops', ?_, h2, h3⟩
  have hcond : ¬params.length ≠ t.num_params := not_ne_iff.mpr hlen
  show (if params.length ≠ t.num_params then _ else
    QuantumTape.writeAll (parLocs t.ops) t ((sortedIndices t.trainable_params).zip params)) = _
  rw [if_neg hcond, h1]

theorem set_parameters_full_ok (t : QuantumTape) (params : List ℚ)
    (hlen : params.length = (parLocs t.ops).length) :
    ∃ ops', t.set_parameters params false = ({ t with ops := ops' }, none) ∧
      flatParams ops' = setAllFlat (flatParams t.ops) params.enum ∧
      ops'.map opShape = t.ops.map opShape := by
  have hb : ∀ kv ∈ params.enum, kv.1 < (parLocs t.ops).length := by
    intro kv hkv
    obtain ⟨i, a⟩ := kv
    have := List.mk_mem_enum_iff_get?.mp hkv
    have hi : i < params.length := by
      rw [List.get?_eq_getElem?] at this
      exact (List.getElem?_eq_some.mp this).1
    omega
  obtain ⟨ops', h1, h2, h3⟩ := writeAll_ok _ (parLocs t.ops) t rfl hb
  refine ⟨ops', ?_, h2, h3⟩
  have hcond : ¬params.length ≠ (parLocs t.ops).length := not_ne_iff.mpr hlen
  show (if params.length ≠ (parLocs t.ops).length then _ else
    QuantumTape.writeAll (parLocs t.ops) t params.enum) = _
  rw [if_neg hcond, h1]

theorem setAllFlat_enum_self (l : List ℚ) : setAllFlat l l.enum = l := by
  apply List.ext_getElem?
  intro j
  have hkeys : l.enum.map Prod.fst = List.range l.length := List.enum_map_fst l
  by_cases hj : j < l.length
  · have hmem : (j, l[j]) ∈ l.enum := by
      rw [List.mk_mem_enum_iff_get?, List.get?_eq_getElem?]
      exact List.getElem?_eq_getElem hj
    rw [setAllFlat_getElem?_mem _ _ _ _ (by rw [hkeys]; exact List.nodup_range _) hmem hj,
      List.getElem?_eq_getElem hj]
  · rw [setAllFlat_getElem?_not_mem _ _ _ (by rw [hkeys]; simpa using hj)]

theorem execute_device_ok (t : QuantumTape) (params : List ℚ) (dev : Device)
    (hWF : t.WF) (hlen : params.length = t.num_params) :
    t.execute_device params dev =
      ⟨.ok (dev (flatParams (t.set_parameters params true).1.ops)), t, 1⟩ := by
  obtain ⟨ops', h1, h2, h3⟩ := set_parameters_free_ok t params hWF hlen
  have hpl : parLocs ops' = parLocs t.ops := parLocs_eq_of_opShape _ _ h3
  have hWF1 : QuantumTape.WF { t with ops := ops' } := by
    intro i hi
    show i < (parLocs ops').length
    rw [hpl]
    exact hWF i hi
  have hcurlen : (t.get_parameters true).length = ({ t with ops := ops' } : QuantumTape).num_params :=
    length_get_parameters_true t hWF
  obtain ⟨ops'', g1, g2, g3⟩ :=
    set_parameters_free_ok { t with ops := ops' } (t.get_parameters true) hWF1 hcurlen
  have hflat : flatParams ops'' = flatParams t.ops := by
    rw [g2]
    show setAllFlat (flatParams ops') _ = _
    rw [h2, get_parameters_true_eq t hWF]
    exact setAllFlat_restore (flatParams t.ops) (sortedIndices t.trainable_params) params
      (sortedIndices_nodup _)
      (by rw [hlen, length_sortedIndices]; rfl)
      (fun k hk => by
        have := hWF k ((mem_sortedIndices _ _).mp hk)
        rwa [length_parLocs] at this)
  have hops : ops'' = t.ops :=
    eq_of_opShape_of_flatParams _ _ (g3.trans h3) hflat
  rw [hops] at g1
  unfold QuantumTape.execute_device
  rw [h1]
  simp only []
  rw [g1]

theorem igrad_numeric_order1_ok (t : QuantumTape) (idx : ℕ) (dev : Device)
    (params y0 : List ℚ) (h : ℚ) (hWF : t.WF) (hlen : params.length = t.num_params) :
    t.igrad_numeric idx dev (some params) 1 h (some y0) =
      ⟨.ok (igradCol t idx dev params 1 h (some y0)), t, 2⟩ := by
  have hsl : (List.zipWith (· + ·) params
      ((List.range params.length).map fun i => if i = idx then h else 0)).length
      = t.num_params := by
    rw [List.length_zipWith, List.length_map, List.length_range]
    omega
  have he0 := execute_device_ok t params dev hWF hlen
  have he := execute_device_ok t _ dev hWF hsl
  simp only [igradCol, QuantumTape.igrad_numeric, Option.getD_some, he0, he]
  norm_num

theorem igrad_numeric_order2_ok (t : QuantumTape) (idx : ℕ) (dev : Device)
    (params : List ℚ) (h : ℚ) (y0? : Option (List ℚ)) (hWF : t.WF)
    (hlen : params.length = t.num_params) :
    t.igrad_numeric idx dev (some params) 2 h y0? =
      ⟨.ok (igradCol t idx dev params 2 h y0?), t, 2⟩ := by
  have hf : (List.zipWith (· + ·) params
      (((List.range params.length).map fun i => if i = idx then h else 0).map (· / 2))).length
      = t.num_params := by
    rw [List.length_zipWith, List.length_map, List.length_map, List.length_range]
    omega
  have hb : (List.zipWith (· - ·) params
      (((List.range params.length).map fun i => if i = idx then h else 0).map (· / 2))).length
      = t.num_params := by
    rw [List.length_zipWith, List.length_map, List.length_map, List.length_range]
    omega
  have hef := execute_device_ok t _ dev hWF hf
  have heb := execute_device_ok t _ dev hWF hb
  simp only [igradCol, QuantumTape.igrad_numeric, Option.getD_some, hef, heb]
  norm_num

theorem jacobianLoop_ok (dev : Device) (g : ℕ → ℕ → Bool) (params : List ℚ)
    (order : ℕ) (h : ℚ) (ug : Bool) (y0? : Option (List ℚ)) (t : QuantumTape) (cost : ℕ)
    (hig : ∀ idx, t.igrad_numeric idx dev (some params) order h y0? =
      ⟨.ok (igradCol t idx dev params order h y0?), t, cost⟩) :
    ∀ idxs : List ℕ,
      QuantumTape.jacobianLoop dev g params order h ug y0? t idxs =
        (.ok (idxs.map fun idx =>
          if t._grad_method g ug idx = .F then igradCol t idx dev params order h y0?
          else List.replicate t.output_dim 0),
         t,
         cost * (idxs.filter fun idx =>
           decide (t._grad_method g ug idx = .F)).length) := by
  intro idxs
  induction idxs with
  | nil => simp [QuantumTape.jacobianLoop]
  | cons idx rest ih =>
    rw [QuantumTape.jacobianLoop]
    by_cases hm : t._grad_method g ug idx = .F
    · rw [if_pos hm, hig idx]
      simp only [ih]
      have hfc : (List.filter (fun i => decide (t._grad_method g ug i = GradMethodResult.F))
          (idx :: rest)).length =
          (List.filter (fun i => decide (t._grad_method g ug i = GradMethodResult.F))
            rest).length + 1 := by
        simp [List.filter_cons, hm]
      rw [List.map_cons, if_pos hm, hfc, Nat.mul_add, Nat.mul_one, Nat.add_comm]
    · rw [if_neg hm, ih]
      simp [hm, List.filter_cons]

theorem jacobian_order1_ok (t : QuantumTape) (dev : Device) (g : ℕ → ℕ → Bool)
    (h : ℚ) (ug : Bool) (hWF : t.WF) :
    t.jacobian dev g none 1 h ug =
      ⟨.ok ((List.range t.num_params).map fun idx =>
          if t._grad_method g ug idx = .F
          then igradCol t idx dev (t.get_parameters true) 1 h
            (some (dev (flatParams
              (t.set_parameters (t.get_parameters true) true).1.ops)))
          else List.replicate t.output_dim 0),
        t, 1 + 2 * t.numericCount g ug t.num_params⟩ := by
  have hlen : (t.get_parameters true).length = t.num_params :=
    length_get_parameters_true t hWF
  have he := execute_device_ok t (t.get_parameters true) dev hWF hlen
  have hloop := jacobianLoop_ok dev g (t.get_parameters true) 1 h ug
    (some (dev (flatParams (t.set_parameters (t.get_parameters true) true).1.ops))) t 2
    (fun idx => igrad_numeric_order1_ok t idx dev (t.get_parameters true) _ h hWF hlen)
    (List.range (t.get_parameters true).length)
  simp only [QuantumTape.jacobian, Option.getD_none, he, hloop]
  norm_num [QuantumTape.numericCount, hlen]

theorem jacobian_order2_ok (t : QuantumTape) (dev : Device) (g : ℕ → ℕ → Bool)
    (h : ℚ) (ug : Bool) (hWF : t.WF) :
    t.jacobian dev g none 2 h ug =
      ⟨.ok ((List.range t.num_params).map fun idx =>
          if t._grad_method g ug idx = .F
          then igradCol t idx dev (t.get_parameters true) 2 h none
          else List.replicate t.output_dim 0),
        t, 2 * t.numericCount g ug t.num_params⟩ := by
  have hlen : (t.get_parameters true).length = t.num_params :=
    length_get_parameters_true t hWF
  have hloop := jacobianLoop_ok dev g (t.get_parameters true) 2 h ug none t 2
    (fun idx => igrad_numeric_order2_ok t idx dev (t.get_parameters true) h none hWF hlen)
    (List.range (t.get_parameters true).length)
  simp only [QuantumTape.jacobian, Option.getD_none, hloop]
  norm_num [QuantumTape.numericCount, hlen]

theorem writeAll_snd (pinfo : List (ℕ × ℕ)) (pairs : List (ℕ × ℚ)) :
    ∀ t : QuantumTape, (QuantumTape.writeAll pinfo t pairs).2 = none ∨
      (QuantumTape.writeAll pinfo t pairs).2 = some "KeyError" := by
  induction pairs with
  | nil => intro t; exact Or.inl rfl
  | cons kv rest ih =>
    intro t
    obtain ⟨idx, p⟩ := kv
    rw [QuantumTape.writeAll]
    rcases hq : pinfo[idx]? with _ | loc
    · exact Or.inr rfl
    · exact ih _

theorem igradCol_order1_eq (t : QuantumTape) (idx : ℕ) (dev : Device)
    (params y0 : List ℚ) (h : ℚ) (hWF : t.WF) (hlen : params.length = t.num_params) :
    igradCol t idx dev params 1 h (some y0) =
      List.zipWith (fun a b => (a - b) / h)
        (dev (flatParams (t.set_parameters (List.zipWith (· + ·) params
          ((List.range params.length).map fun i => if i = idx then h else 0)) true).1.ops))
        y0 := by
  have hsl : (List.zipWith (· + ·) params
      ((List.range params.length).map fun i => if i = idx then h else 0)).length
      = t.num_params := by
    rw [List.length_zipWith, List.length_map, List.length_range]
    omega
  have he0 := execute_device_ok t params dev hWF hlen
  have he := execute_device_ok t _ dev hWF hsl
  simp only [igradCol, QuantumTape.igrad_numeric, Option.getD_some, he0, he]
  norm_num

theorem grad_method_empty_obs (t : QuantumTape) (g : ℕ → ℕ → Bool) (ug : Bool)
    (hobs : t.obs = []) (hg : (t.graph_cached || ug) = true) (idx : ℕ) :
    t._grad_method g ug idx = .U ∨ t._grad_method g ug idx = .Z := by
  have hlen0 : t.observables.length = 0 := by
    simp [QuantumTape.observables, hobs]
  unfold QuantumTape._grad_method
  rw [hlen0]
  simp only [hg, List.range_zero, List.map_nil, List.all_nil, eq_self_iff_true, if_true]
  split
  · exact Or.inl rfl
  · split
    · exact Or.inl rfl
    · split
      · exact Or.inl rfl
      · exact Or.inr rfl

theorem construct_WF (q : List QueueItem) : (construct q).WF := by
  intro i hi
  exact Finset.mem_range.mp hi

theorem foldl_constructStep_output_dim (q : List QueueItem) :
    ∀ t : QuantumTape, (q.foldl constructStep t).output_dim =
      t.output_dim + outputDimFormula q := by
  induction q with
  | nil => intro t; simp [outputDimFormula]
  | cons item rest ih =>
    intro t
    rw [List.foldl_cons, ih]
    cases item with
    | operation o => simp [constructStep, outputDimFormula]
    | measurement m owns =>
      by_cases hp : m.return_type = .Probability
      · simp [constructStep, outputDimFormula, hp]
        omega
      · cases owns with
        | some ob =>
          simp [constructStep, outputDimFormula, hp]
          omega
        | none => simp [constructStep, outputDimFormula, hp]

theorem construct_output_dim (q : List QueueItem) :
    (construct q).output_dim = outputDimFormula q := by
  have h := foldl_constructStep_output_dim q QuantumTape.init
  calc (construct q).output_dim = (q.foldl constructStep QuantumTape.init).output_dim := rfl
    _ = QuantumTape.init.output_dim + outputDimFormula q := h
    _ = outputDimFormula q := Nat.zero_add _

theorem grad_method_empty_obs_zero (t : QuantumTape) (g : ℕ → ℕ → Bool)
    (hobs : t.obs = []) (idx : ℕ) (loc : ℕ × ℕ) (op : Operation)
    (h1 : (parLocs t.ops)[idx]? = some loc) (h2 : t.ops[loc.1]? = some op)
    (h3 : op.grad_method = true) : t._grad_method g true idx = .Z := by
  have hlen0 : t.observables.length = 0 := by
    simp [QuantumTape.observables, hobs]
  unfold QuantumTape._grad_method
  simp [h1, h2, h3, hlen0]

/-- C1 (code evaluation at the failing input): on the two-operation
tape whose only trainable parameter is global index 1, owned by
operation B with no dependency path to the observable (`_grad_method`
classifies index 1 as `"0"`), the claim demands an all-zero column
with zero column evaluations, i.e. exactly one total backend
evaluation (the shared baseline).  The code passes the column
position 0 to `_grad_method`, which reads it as a global index and
returns `"F"` for operation A, so the finite-difference estimator is
invoked for the column; `jacobian` performs 3 backend evaluations in
total (its own baseline, plus for the column a re-evaluated discarded
baseline from the eager `options.get` default and the shifted
evaluation). -/
theorem C1_failing_input_eval :
    tapeC1._grad_method gFirstOnly true 1 = .Z ∧
    sortedIndices tapeC1.trainable_params = [1] ∧
    tapeC1._grad_method gFirstOnly true 0 = .F ∧
    tapeC1.numericCount gFirstOnly true tapeC1.num_params = 1 ∧
    (tapeC1.jacobian devSecond gFirstOnly none 1 1 true).evals = 3 := by
  decide

/-- C2 (counterexample): on the three-parameter tape whose graph
connects only operation A, exactly one column is numeric, so the claim
predicts `1 + 1 = 2` backend evaluations for order 1; the code
performs 3, because the default argument of
`options.get("y0", np.asarray(self.execute_device(params, device)))`
is evaluated eagerly, re-running (and discarding) the baseline once
per numeric column even though `y0` is supplied. -/
theorem C2_counterexample :
    tapeABC.numericCount gFirstOnly true tapeABC.num_params = 1 ∧
    (tapeABC.jacobian devSum gFirstOnly none 1 1 true).evals = 3 ∧
    (tapeABC.jacobian devSum gFirstOnly none 1 1 true).evals ≠
      1 + tapeABC.numericCount gFirstOnly true tapeABC.num_params := by
  decide

/-- C2 (amended): for every well-formed tape, `jacobian` with order 1
computes the baseline `y0` once and hands that shared value to every
column, but each numeric column eagerly re-evaluates the baseline on
the backend and discards it before the shifted evaluation, so the
total is one shared baseline plus exactly two evaluations per column
whose gradient method is numeric (`"F"`); with order 2 exactly two
evaluations per numeric column and no shared baseline. -/
theorem C2_amended_jacobian_eval_counts (t : QuantumTape) (dev : Device)
    (g : ℕ → ℕ → Bool) (h : ℚ) (ug : Bool) (hWF : t.WF) :
    (t.jacobian dev g none 1 h ug).evals =
      1 + 2 * t.numericCount g ug t.num_params ∧
    (t.jacobian dev g none 1 h ug).result.isOk = true ∧
    (t.jacobian dev g none 2 h ug).evals = 2 * t.numericCount g ug t.num_params ∧
    (t.jacobian dev g none 2 h ug).result.isOk = true := by
  rw [jacobian_order1_ok t dev g h ug hWF, jacobian_order2_ok t dev g h ug hWF]
  exact ⟨rfl, rfl, rfl, rfl⟩

theorem C2_amended_jacobian_eval_counts_witness :
    (tapeABC.jacobian devSum gFirstOnly none 1 1 true).evals =
      1 + 2 * tapeABC.numericCount gFirstOnly true tapeABC.num_params ∧
    (tapeABC.jacobian devSum gFirstOnly none 1 1 true).result.isOk = true ∧
    (tapeABC.jacobian devSum gFirstOnly none 2 1 true).evals =
      2 * tapeABC.numericCount gFirstOnly true tapeABC.num_params ∧
    (tapeABC.jacobian devSum gFirstOnly none 2 1 true).result.isOk = true :=
  C2_amended_jacobian_eval_counts tapeABC devSum gFirstOnly 1 true (by decide)

/-- C3 (counterexample): `tapeC3` has 3 global parameters, and the
index 2 is a nonnegative integer strictly below that total, so by the
claim the assignment `trainable_params = {2}` must be accepted; the
code raises (because its bound check is `i > num_params` with
`num_params = 1`, the size of the current trainable set) and the
previous trainable set `{0}` is kept. -/
theorem C3_counterexample :
    (parLocs tapeC3.ops).length = 3 ∧
    (0 : ℤ) ≤ 2 ∧ (2 : ℤ) < 3 ∧
    tapeC3.num_params = 1 ∧
    (tapeC3.set_trainable_params {2}).2.isSome = true ∧
    (tapeC3.set_trainable_params {2}).1.trainable_params = {0} := by
  decide

/-- C3 (amended): assigning to `trainable_params` raises a validation
error if and only if some supplied index is negative (or, in Python,
not an integer) or strictly greater than the current `num_params`
(the size of the trainable set being replaced, not the total
parameter count); on an error the previous trainable set is left
unchanged, and on success the supplied set wholly replaces the old
one. -/
theorem C3_amended_setter_validation (t : QuantumTape) (idxs : Finset ℤ) :
    ((t.set_trainable_params idxs).2.isSome ↔
      (∃ i ∈ idxs, i < 0) ∨ ∃ i ∈ idxs, (t.num_params : ℤ) < i) ∧
    ((t.set_trainable_params idxs).2.isSome → (t.set_trainable_params idxs).1 = t) ∧
    ((t.set_trainable_params idxs).2 = none →
      (t.set_trainable_params idxs).1 =
        { t with trainable_params := idxs.image Int.toNat }) := by
  unfold QuantumTape.set_trainable_params
  split_ifs with h1 h2
  · simp [h1]
  · simp [h1, h2]
  · simp [h1, h2]

theorem C3_amended_setter_validation_witness :
    ((tapeC3.set_trainable_params {2}).2.isSome ↔
      (∃ i ∈ ({2} : Finset ℤ), i < 0) ∨
        ∃ i ∈ ({2} : Finset ℤ), (tapeC3.num_params : ℤ) < i) ∧
    ((tapeC3.set_trainable_params {2}).2.isSome →
      (tapeC3.set_trainable_params {2}).1 = tapeC3) ∧
    ((tapeC3.set_trainable_params {2}).2 = none →
      (tapeC3.set_trainable_params {2}).1 =
        { tapeC3 with trainable_params := ({2} : Finset ℤ).image Int.toNat }) :=
  C3_amended_setter_validation tapeC3 {2}

/-- C4: for every program, writing back the full parameter vector read
by `get_parameters(free_only=False)` through
`set_parameters(free_only=False)` succeeds and leaves every operation
data vector (and the whole tape) unchanged. -/
theorem C4_set_get_roundtrip_id (t : QuantumTape) :
    t.set_parameters (t.get_parameters false) false = (t, none) := by
  obtain ⟨ops', h1, h2, h3⟩ := set_parameters_full_ok t (t.get_parameters false)
    (by rw [get_parameters_false_eq]; exact (length_parLocs t.ops).symm)
  have hf : flatParams ops' = flatParams t.ops := by
    rw [h2, get_parameters_false_eq, setAllFlat_enum_self]
  have ho : ops' = t.ops := eq_of_opShape_of_flatParams _ _ h3 hf
  rw [h1, ho]

theorem C4_set_get_roundtrip_id_witness :
    tapeABC.set_parameters (tapeABC.get_parameters false) false = (tapeABC, none) :=
  C4_set_get_roundtrip_id tapeABC

/-- C5: `num_params` always equals the cardinality of the trainable
set; and after a successful assignment `trainable_params = S` (with
indices the setter accepts and within the registry), the free
parameters are exactly the values at the global indices in `S`, in
ascending global-index order. -/
theorem C5_trainable_set_invariants (t : QuantumTape) (S : Finset ℕ)
    (hacc : ∀ i ∈ S, i ≤ t.num_params)
    (hrange : ∀ i ∈ S, i < (parLocs t.ops).length) :
    (∀ u : QuantumTape, u.num_params = u.trainable_params.card) ∧
    (t.set_trainable_params (S.image Int.ofNat)).2 = none ∧
    (t.set_trainable_params (S.image Int.ofNat)).1.num_params = S.card ∧
    (t.set_trainable_params (S.image Int.ofNat)).1.get_parameters true =
      (sortedIndices S).map fun i => (flatParams t.ops).getD i 0 := by
  have himg : (S.image Int.ofNat).image Int.toNat = S := by
    rw [Finset.image_image]
    have hco : (Int.toNat ∘ Int.ofNat) = id := by
      funext i
      rfl
    rw [hco, Finset.image_id]
  have hset : t.set_trainable_params (S.image Int.ofNat) =
      ({ t with trainable_params := S }, none) := by
    unfold QuantumTape.set_trainable_params
    rw [if_neg, if_neg]
    · rw [himg]
    · rintro ⟨i, hi, hlt⟩
      obtain ⟨j, hj, rfl⟩ := Finset.mem_image.mp hi
      have hle := hacc j hj
      rw [Int.ofNat_eq_natCast] at hlt
      omega
    · rintro ⟨i, hi, hneg⟩
      obtain ⟨j, hj, rfl⟩ := Finset.mem_image.mp hi
      rw [Int.ofNat_eq_natCast] at hneg
      omega
  have hWF2 : QuantumTape.WF { t with trainable_params := S } := fun i hi => hrange i hi
  rw [hset]
  refine ⟨fun u => rfl, rfl, rfl, ?_⟩
  rw [get_parameters_true_eq _ hWF2]

theorem C5_trainable_set_invariants_witness :
    (∀ u : QuantumTape, u.num_params = u.trainable_params.card) ∧
    (tapeABC.set_trainable_params (({0, 2} : Finset ℕ).image Int.ofNat)).2 = none ∧
    (tapeABC.set_trainable_params (({0, 2} : Finset ℕ).image Int.ofNat)).1.num_params =
      ({0, 2} : Finset ℕ).card ∧
    (tapeABC.set_trainable_params (({0, 2} : Finset ℕ).image Int.ofNat)).1.get_parameters
        true =
      (sortedIndices {0, 2}).map fun i => (flatParams tapeABC.ops).getD i 0 :=
  C5_trainable_set_invariants tapeABC {0, 2} (by decide) (by decide)

/-- C6: when the device call returns, `execute_device` has restored
every operation data vector to the exact values it held before the
call (the whole tape is unchanged), and it returns the raw device
result computed on the program with `params` substituted, at the cost
of one device execution. -/
theorem C6_execute_device_restores (t : QuantumTape) (params : List ℚ) (dev : Device)
    (hWF : t.WF) (hlen : params.length = t.num_params) :
    t.execute_device params dev =
      ⟨.ok (dev (flatParams (t.set_parameters params true).1.ops)), t, 1⟩ :=
  execute_device_ok t params dev hWF hlen

theorem C6_execute_device_restores_witness :
    tapeAB.execute_device [5, 7] devSum =
      ⟨.ok (devSum (flatParams ((tapeAB.set_parameters [5, 7] true).1.ops))),
        tapeAB, 1⟩ :=
  C6_execute_device_restores tapeAB [5, 7] devSum (by decide) (by decide)

/-- C7: `set_parameters` raises its length-validation error exactly
when the number of supplied values differs from the required length
(`num_params` in free mode, the full registry size otherwise), and on
such a mismatch the check fires before any write: the tape is
returned unchanged. -/
theorem C7_set_parameters_length_validation (t : QuantumTape) (vals : List ℚ)
    (fo : Bool) :
    ((t.set_parameters vals fo).2 = some "Number of provided parameters invalid." ↔
      vals.length ≠ (if fo then t.num_params else (parLocs t.ops).length)) ∧
    (vals.length ≠ (if fo then t.num_params else (parLocs t.ops).length) →
      t.set_parameters vals fo = (t, some "Number of provided parameters invalid.")) := by
  unfold QuantumTape.set_parameters
  by_cases hc : vals.length ≠ (if fo then t.num_params else (parLocs t.ops).length)
  · rw [if_pos hc]
    exact ⟨⟨fun _ => hc, fun _ => rfl⟩, fun _ => rfl⟩
  · rw [if_neg hc]
    refine ⟨⟨?_, fun hn => absurd hn hc⟩, fun hn => absurd hn hc⟩
    intro hmsg
    rcases writeAll_snd (parLocs t.ops)
        (if fo then (sortedIndices t.trainable_params).zip vals else vals.enum) t with
      hs | hs
    · rw [hs] at hmsg
      exact absurd hmsg (by simp)
    · rw [hs] at hmsg
      exact absurd (Option.some.inj hmsg) (by decide)

theorem C7_set_parameters_length_validation_witness :
    ((tapeABC.set_parameters [1] false).2 =
        some "Number of provided parameters invalid." ↔
      ([1] : List ℚ).length ≠
        (if false then tapeABC.num_params else (parLocs tapeABC.ops).length)) ∧
    (([1] : List ℚ).length ≠
        (if false then tapeABC.num_params else (parLocs tapeABC.ops).length) →
      tapeABC.set_parameters [1] false =
        (tapeABC, some "Number of provided parameters invalid.")) :=
  C7_set_parameters_length_validation tapeABC [1] false

/-- C8: for every constructed program and a device whose output has
the declared dimension, `jacobian` with default arguments succeeds and
returns a matrix with exactly `num_params` columns, each of length
`output_dim`, where `output_dim` is the sum over recorded measurements
of `2^|wires|` for a probability measurement and 1 for every other
registered measurement. -/
theorem C8_jacobian_shape (q : List QueueItem) (dev : Device) (g : ℕ → ℕ → Bool)
    (h : ℚ) (hdev : ∀ x, (dev x).length = (construct q).output_dim) :
    ((construct q).jacobian dev g none 1 h true).result.isOk = true ∧
    (colsOf ((construct q).jacobian dev g none 1 h true)).length =
      (construct q).num_params ∧
    (∀ c ∈ colsOf ((construct q).jacobian dev g none 1 h true),
      c.length = (construct q).output_dim) ∧
    (construct q).output_dim = outputDimFormula q := by
  have hWF := construct_WF q
  have hjac := jacobian_order1_ok (construct q) dev g h true hWF
  rw [hjac]
  refine ⟨rfl, ?_, ?_, construct_output_dim q⟩
  · simp [colsOf]
  · intro c hc
    simp only [colsOf] at hc
    obtain ⟨idx, hidx, rfl⟩ := List.mem_map.mp hc
    by_cases hm : (construct q)._grad_method g true idx = .F
    · rw [if_pos hm]
      rw [igradCol_order1_eq _ _ _ _ _ _ hWF (length_get_parameters_true _ hWF)]
      rw [List.length_zipWith, hdev, hdev, Nat.min_self]
    · rw [if_neg hm, List.length_replicate]

theorem C8_jacobian_shape_witness :
    ((construct queueAB).jacobian devSum gAll none 1 1 true).result.isOk = true ∧
    (colsOf ((construct queueAB).jacobian devSum gAll none 1 1 true)).length =
      (construct queueAB).num_params ∧
    (∀ c ∈ colsOf ((construct queueAB).jacobian devSum gAll none 1 1 true),
      c.length = (construct queueAB).output_dim) ∧
    (construct queueAB).output_dim = outputDimFormula queueAB :=
  C8_jacobian_shape queueAB devSum gAll 1 (fun _ => rfl)

/-- C9: with any order other than 1 or 2, `igrad_numeric` raises its
order-validation error with the tape unchanged and zero device
executions. -/
theorem C9_igrad_invalid_order (t : QuantumTape) (idx : ℕ) (dev : Device)
    (params? : Option (List ℚ)) (order : ℕ) (h : ℚ) (y0? : Option (List ℚ))
    (h1 : order ≠ 1) (h2 : order ≠ 2) :
    t.igrad_numeric idx dev params? order h y0? =
      ⟨.error "Order must be 1 or 2.", t, 0⟩ := by
  unfold QuantumTape.igrad_numeric
  rw [if_neg h1, if_neg h2]

theorem C9_igrad_invalid_order_witness :
    tapeAB.igrad_numeric 0 devSum none 3 1 none =
      ⟨.error "Order must be 1 or 2.", tapeAB, 0⟩ :=
  C9_igrad_invalid_order tapeAB 0 devSum none 3 1 none (by decide) (by decide)

/-- C10: on a tape whose resolved observables list is empty,
`_grad_method` (with the graph in use) classifies every parameter
whose owning operation declares a gradient method as structurally
zero, vacuously over the empty observable list; `jacobian` therefore
fills no column, returns the all-zero matrix, and performs only the
single baseline evaluation. -/
theorem C10_empty_obs_zero_jacobian (t : QuantumTape) (dev : Device)
    (g : ℕ → ℕ → Bool) (h : ℚ) (hWF : t.WF) (hobs : t.obs = []) :
    (∀ idx loc op, (parLocs t.ops)[idx]? = some loc → t.ops[loc.1]? = some op →
      op.grad_method = true → t._grad_method g true idx = .Z) ∧
    (t.jacobian dev g none 1 h true).result =
      .ok (List.replicate t.num_params (List.replicate t.output_dim 0)) ∧
    (t.jacobian dev g none 1 h true).evals = 1 := by
  have hnF : ∀ idx, t._grad_method g true idx ≠ .F := by
    intro idx
    rcases grad_method_empty_obs t g true hobs (Bool.or_true _) idx with hu | hz
    · rw [hu]
      intro hcontra
      cases hcontra
    · rw [hz]
      intro hcontra
      cases hcontra
  have hcount : t.numericCount g true t.num_params = 0 := by
    unfold QuantumTape.numericCount
    rw [List.filter_eq_nil_iff.mpr (fun a _ => by simp [hnF a])]
    rfl
  have hjac := jacobian_order1_ok t dev g h true hWF
  refine ⟨fun idx loc op h1 h2 h3 => grad_method_empty_obs_zero t g hobs idx loc op h1 h2 h3,
    ?_, ?_⟩
  · rw [hjac]
    show Except.ok _ = _
    congr 1
    refine List.eq_replicate_iff.mpr ⟨by simp, ?_⟩
    intro b hb
    obtain ⟨idx, hidx, rfl⟩ := List.mem_map.mp hb
    rw [if_neg (hnF idx)]
  · rw [hjac, hcount]

theorem C10_empty_obs_zero_jacobian_witness :
    (∀ idx loc op, (parLocs tapeNoObs.ops)[idx]? = some loc →
      tapeNoObs.ops[loc.1]? = some op → op.grad_method = true →
      tapeNoObs._grad_method gAll true idx = .Z) ∧
    (tapeNoObs.jacobian devSum gAll none 1 1 true).result =
      .ok (List.replicate tapeNoObs.num_params
        (List.replicate tapeNoObs.output_dim 0)) ∧
    (tapeNoObs.jacobian devSum gAll none 1 1 true).evals = 1 :=
  C10_empty_obs_zero_jacobian tapeNoObs devSum gAll 1 (by decide) rfl
